import Mathlib

/-!
Verification of the requirement-compilation and valuation engine of the
Eclair topping optimizer (src/topping_bot/optimize/requirements.py and
src/topping_bot/optimize/toppings.py), as a shallow embedding: Python
`Decimal` values become `ℚ`, dictionaries become association lists in
insertion order, and in-place mutation becomes explicit state passing.
-/

namespace Eclair

/-- Substat / stat kinds (class `Type` in topping_bot/optimize/toppings.py). -/
inductive SType
  | DMGRES | ATK | CD | ATKSPD | CRIT | HP | BUFF | DEF | BUFFRES | CRITRES
  | DARK_DMG | ELEC_DMG | FIRE_DMG | EARTH_DMG | POISON_DMG | LIGHT_DMG
  | CRIT_DMG | ATK_MULT
  | COMBO | E_DMG | VITALITY
  | RNG | NONE
  deriving DecidableEq, Fintype, Repr

/-- Resonance tags (class `Resonance` in toppings.py). -/
inductive Resonance
  | NORMAL | MOONKISSED | TRIO | DRACONIC | TROPICAL_ROCK | SEA_SALT
  | RADIANT_CHEESE | FROSTED_CRYSTAL | LIFESPROUTING | DESTRUCTIVE
  | FRAGRANT | IRIS_GEM | DECEITFUL | TRUTHFUL | SACRED_VOW
  deriving DecidableEq, Repr

/-- The set-bonus schedule `INFO[stat]["combos"]` of toppings.py: ordered
(item-count threshold, bonus value) pairs per stat.  Stats outside the ten
catalogued topping flavors have no schedule. -/
def combos : SType → List (ℕ × ℚ)
  | .DMGRES => [(2, 3), (3, 7), (5, 8), (6, 10)]
  | .ATK => [(2, 4), (3, 8), (5, 10), (6, 12)]
  | .CD => [(2, 2), (3, 4), (5, 5), (6, 6)]
  | .ATKSPD => [(2, 7), (3, 8), (5, 10), (6, 12)]
  | .CRIT => [(2, 4), (3, 6), (5, 8), (6, 10)]
  | .HP => [(2, 4), (3, 10), (5, 12), (6, 15)]
  | .BUFF => [(2, 9), (3, 10), (5, 11), (6, 12)]
  | .DEF => [(2, 10), (3, 13), (5, 20), (6, 25)]
  | .BUFFRES => [(2, 10), (3, 11), (5, 12), (6, 13)]
  | .CRITRES => [(2, 20), (3, 25), (5, 30), (6, 35)]
  | _ => []

/-- One topping (class `Topping`).  `oid` models Python object identity
(`id(self)`, the value `__hash__` returns); `substats` is the full substat
list whose head is the primary stat. -/
structure Topping where
  oid : ℕ
  substats : List (SType × ℚ)
  resonance : Option Resonance
  deriving DecidableEq, Repr

/-- `Topping.flavor`: the primary stat, `Type(substats[0][0])`. -/
def Topping.flavor (t : Topping) : SType :=
  match t.substats with
  | [] => .NONE
  | (s, _) :: _ => s

/-- `Topping.__eq__`: `self.substats == other.substats and self.resonance ==
other.resonance` (content comparison; object identity plays no part). -/
def Topping.pyEq (a b : Topping) : Bool :=
  decide (a.substats = b.substats) && decide (a.resonance = b.resonance)

/-- `Topping.__hash__`: `id(self)`, the allocation identity. -/
def Topping.pyHash (t : Topping) : ℕ := t.oid

/-- A complete set of five toppings (class `ToppingSet`). -/
structure ToppingSet where
  toppings : List Topping

/-- Number of members whose primary stat is `s`:
`len([topping for topping in self.toppings if topping.flavor == substat])`. -/
def matchCount (ts : List Topping) (s : SType) : ℕ :=
  (ts.filter (fun t => decide (t.flavor = s))).length

/-- The scan of `ToppingSet.set_effect`: first schedule entry (the schedule is
passed reversed, richest tier first) whose count requirement is met. -/
def firstTier (count : ℕ) : List (ℕ × ℚ) → ℕ × ℚ
  | [] => (0, 0)
  | (required_count, set_bonus) :: rest =>
    if required_count ≤ count then (required_count, set_bonus)
    else firstTier count rest

/-- `ToppingSet.set_effect(substat)`: scan `INFO[substat]["combos"][::-1]` and
return the first tier whose requirement is met, else `(0, Decimal("0"))`. -/
def ToppingSet.set_effect (ts : ToppingSet) (substat : SType) : ℕ × ℚ :=
  firstTier (matchCount ts.toppings substat) (combos substat).reverse

/-- Total set-bonus value of a set over a list of candidate substats:
the sum of `set_effect(s)[1]`. -/
def totalSetBonus (ts : ToppingSet) (substats : List SType) : ℚ :=
  (substats.map (fun s => (ts.set_effect s).2)).sum

/-- Dictionary assignment `d[s] = max(d.get(s, Decimal(0)), b)` on an
association list in insertion order: update the entry holding key `s` in
place, else append the new key. -/
def dictSetMax (m : List (SType × ℚ)) (s : SType) (b : ℚ) : List (SType × ℚ) :=
  match m with
  | [] => [(s, max 0 b)]
  | p :: ps => if p.1 = s then (p.1, max p.2 b) :: ps else p :: dictSetMax ps s b

/-- The four tier dictionaries `best_set_bonuses` of
`Requirements.best_possible_set_effect` (keys 2, 3, 5 and 6). -/
structure TierBonuses where
  t2 : List (SType × ℚ)
  t3 : List (SType × ℚ)
  t5 : List (SType × ℚ)
  t6 : List (SType × ℚ)

/-- The double loop of `best_possible_set_effect`: for each candidate stat
and each schedule entry whose requirement is met by the committed toppings,
record the bonus under the entry's tier.  (Every schedule's thresholds are
2, 3, 5 or 6, the exact keys of `best_set_bonuses`.) -/
def collectBonuses (combo : List Topping) (substats : List SType) : TierBonuses :=
  substats.foldl
    (fun st s =>
      let mc := matchCount combo s
      (combos s).foldl
        (fun st rb =>
          if rb.1 ≤ mc then
            match rb.1 with
            | 2 => { st with t2 := dictSetMax st.t2 s rb.2 }
            | 3 => { st with t3 := dictSetMax st.t3 s rb.2 }
            | 5 => { st with t5 := dictSetMax st.t5 s rb.2 }
            | 6 => { st with t6 := dictSetMax st.t6 s rb.2 }
            | _ => st
          else st)
        st)
    ⟨[], [], [], []⟩

/-- `best_2_3_combo`: best sum of a 2-piece and a 3-piece bonus coming from
two different stats. -/
def best23 (t2 t3 : List (SType × ℚ)) : ℚ :=
  t2.foldl
    (fun acc p2 =>
      t3.foldl (fun acc p3 => if p2.1 ≠ p3.1 then max acc (p2.2 + p3.2) else acc) acc)
    0

/-- `max(d.values(), default=Decimal(0))`. -/
def maxValuesD (m : List (SType × ℚ)) : ℚ :=
  match m.map (·.2) with
  | [] => 0
  | v :: vs => vs.foldl max v

/-- `Requirements.best_possible_set_effect(combo, substats, non_match_count)`
(requirements.py lines 369-396), translated clause for clause.  Note the
source never reads `non_match_count`. -/
def best_possible_set_effect (combo : List Topping) (substats : List SType)
    (non_match_count : ℕ) : ℚ :=
  let st := collectBonuses combo substats
  let best_2_3_combo := best23 st.t2 st.t3
  let best_2 := maxValuesD st.t2
  let best_3 := maxValuesD st.t3
  let best_5 := maxValuesD st.t5
  let best_6 := maxValuesD st.t6
  max (max (max (max best_2_3_combo best_2) best_3) best_5) best_6

/-- Comparison direction of a compiled validity constraint (`valid.op.str`,
either the string ">=" or "<="). -/
inductive Op
  | ge | le
  deriving DecidableEq, Repr

/-- Modelled from the spec: module topping_bot/optimize/validity.py (classes
`Normal`, `Range`, `Equality`, `Relative` with their `parse`, `convert` and
`fuzz`) is not among the source files; per the spec a compiled simple
constraint carries a substat, a comparison direction and an exact decimal
target. -/
structure ValidReq where
  substat : SType
  op : Op
  target : ℚ
  deriving DecidableEq, Repr

/-- The dictionary key under which `Requirements.realize` collapses a
constraint: per the spec, same stat and same comparison direction. -/
def keyOf (v : ValidReq) : SType × Op := (v.substat, v.op)

/-- `extreme(collapsed[valid], valid, key=lambda x: x.target)` where `extreme`
is `max` for ">=" and `min` for "<="; Python's `max`/`min` return their first
argument on a tie, so the already-stored constraint is kept. -/
def pick (old new : ValidReq) : ValidReq :=
  match new.op with
  | .ge => if old.target < new.target then new else old
  | .le => if new.target < old.target then new else old

/-- One step of the `collapsed` dictionary build of `realize`: if a constraint
with the same (stat, direction) key is present, replace it by the tighter of
the two, else append under the new key (dictionaries preserve insertion
order). -/
def insertReq (acc : List ValidReq) (v : ValidReq) : List ValidReq :=
  match acc with
  | [] => [v]
  | w :: ws => if keyOf w = keyOf v then pick w v :: ws else w :: insertReq ws v

/-- The duplicate-collapse step of `Requirements.realize` (requirements.py
lines 247-257): fold the constraint list into the `collapsed` dictionary and
return `list(collapsed.values())`. -/
def collapse (l : List ValidReq) : List ValidReq := l.foldl insertReq []

/-- First constraint with the given (stat, direction) key. -/
def lookupReq (m : List ValidReq) (k : SType × Op) : Option ValidReq :=
  match m with
  | [] => none
  | v :: vs => if keyOf v = k then some v else lookupReq vs k

/-- `matched[s].get(">=", 0)`: the ">=" bound recorded for stat `s`, default
0.  (On the collapsed list each (stat, direction) key is unique, so the
dictionary's last-write-wins build holds the first and only match.) -/
def geT (m : List ValidReq) (s : SType) : ℚ :=
  ((lookupReq m (s, Op.ge)).map (·.target)).getD 0

/-- The contradiction check of `realize` (lines 259-267): for each stat, if a
"<=" bound is present and is smaller than the ">=" bound (default 0), raise
`ValueError` reporting the stat and both bounds.  `float("inf")` as the "<="
default means a stat with no "<=" bound never trips the check. -/
def contradictionScan (m : List ValidReq) : List SType → Option (SType × ℚ × ℚ)
  | [] => none
  | s :: rest =>
    match lookupReq m (s, Op.le) with
    | some hv =>
      if hv.target < geT m s then some (s, geT m s, hv.target)
      else contradictionScan m rest
    | none => contradictionScan m rest

/-- Dictionary update `d[s] = d.get(s, 0) + v` on an association list in
insertion order (`defaultdict(Decimal)` accumulation): update the entry
holding key `s` in place, else append the new key. -/
def dictAdd (m : List (SType × ℚ)) (s : SType) (v : ℚ) : List (SType × ℚ) :=
  match m with
  | [] => [(s, v)]
  | p :: ps => if p.1 = s then (p.1, p.2 + v) :: ps else p :: dictAdd ps s v

/-- Dictionary read with default. -/
def dictGetD (m : List (SType × ℚ)) (s : SType) (d : ℚ) : ℚ :=
  match m with
  | [] => d
  | p :: ps => if p.1 = s then p.2 else dictGetD ps s d

/-- Dictionary key-membership test (`stat in dict`). -/
def hasKey (m : List (SType × ℚ)) (s : SType) : Bool :=
  match m with
  | [] => false
  | p :: ps => p.1 = s || hasKey ps s

/-- `Requirements.merged_biscuit` (lines 282-297): merge biscuit lines by
summing targets for the same substat, first-occurrence order. -/
def merged_biscuit (biscuit : List (SType × ℚ)) : List (SType × ℚ) :=
  biscuit.foldl (fun m line => dictAdd m line.1 line.2) []

/-- The dictionary comprehension opening the `adjusted_valid` property (line
307): `{line.substat.name: deepcopy(line) for line in self.valid}` keyed by
substat name alone — for each substat only the last constraint survives, keys
in first-occurrence order. -/
def dedupBySubstat (valid : List ValidReq) : List ValidReq :=
  (valid.foldl
      (fun m line =>
        if m.any (fun p => decide (p.1 = line.substat)) then
          m.map (fun p => if p.1 = line.substat then (p.1, line) else p)
        else m ++ [(line.substat, line)])
      []).map (·.2)

/-- The `adjusted_valid` property (lines 300-333): dedup `valid` by substat
name, then for every merged biscuit line subtract its target from the
same-stat constraint's target, floored at zero. -/
def adjusted_valid (valid : List ValidReq) (biscuit : List (SType × ℚ)) :
    List ValidReq :=
  (merged_biscuit biscuit).foldl
    (fun av bl =>
      av.map (fun v =>
        if v.substat = bl.1 then { v with target := max (v.target - bl.2) 0 } else v))
    (dedupBySubstat valid)

/-- `Requirements.realize` (lines 243-267) on a cookie whose constraints are
simple bounds: read the `adjusted_valid` property, convert and fuzz (both
modelled as the identity: `convert` of a simple constraint yields itself and
the spec fixes no fuzz widening policy), collapse duplicates, then run the
contradiction check over the stats of the collapsed list (the `matched`
dictionary's key order; revisiting a stat cannot change the outcome). -/
def realize (valid : List ValidReq) (biscuit : List (SType × ℚ)) :
    Except (SType × ℚ × ℚ) (List ValidReq) :=
  let m := collapse (adjusted_valid valid biscuit)
  match contradictionScan m (m.map (·.substat)) with
  | some e => .error e
  | none => .ok m

/-- A cookie block of the document as `from_yaml` sees it for the
relative-reference check: its name and, in order, the target cookie names of
its `Relative` constraints.  Modelled from the spec: class `Relative`
(validity.py) is not among the source files; per the spec it references a
sibling cookie by name. -/
structure CookieBlock where
  name : String
  relRefs : List String

/-- The per-cookie requirement loop of `from_yaml` (lines 131-142) restricted
to its `Relative` branch: a relative target not in `cookie_names` raises. -/
def checkRelRefs (cname : String) (seen : List String) :
    List String → Except String Unit
  | [] => .ok ()
  | r :: rs =>
    if r ∈ seen then checkRelRefs cname seen rs
    else .error (cname ++ " : relative target must be a previously seen cookie")

/-- The cookie loop of `from_yaml` (lines 125-203) restricted to the
relative-reference bookkeeping: process cookies in document order, adding each
cookie's name to `cookie_names` only after its requirements are checked, and
abort on the first failing cookie. -/
def from_yaml_relative : List String → List CookieBlock → Except String (List String)
  | seen, [] => .ok seen
  | seen, c :: cs =>
    match checkRelRefs c.name seen c.relRefs with
    | .ok _ => from_yaml_relative (seen ++ [c.name]) cs
    | .error e => .error e

/-- `DEFAULT_MODIFIERS` (requirements.py lines 17-31): built-in baseline
bonus sources per stat. -/
def DEFAULT_MODIFIERS : List (SType × List (String × ℚ)) :=
  [(SType.ATK, [("Base", 100)]),
   (SType.CRIT, [("Base", 5), ("Eerie Haunted House Landmark", 8)]),
   (SType.CRIT_DMG,
    [("Base", 150), ("CRIT DMG Bonus Lab", 20),
     ("Chocolate Alter of the Fallen Landmark", 20)]),
   (SType.HP, [("Base", 100)])]

/-- Accumulate a list of per-stat buff declarations into a modifier
dictionary: `mods[stat] += value` for every source entry. -/
def addAll (m : List (SType × ℚ)) (entries : List (SType × List (String × ℚ))) :
    List (SType × ℚ) :=
  entries.foldl (fun m p => p.2.foldl (fun m sv => dictAdd m p.1 sv.2) m) m

/-- The modifier accumulation of `from_yaml` (lines 113-120): built-in
baselines first, then the document's declared buffs. -/
def accumMods (declared : List (SType × List (String × ℚ))) : List (SType × ℚ) :=
  addAll (addAll [] DEFAULT_MODIFIERS) declared

/-- Plain per-stat total of a buff declaration list (spec 4.1: baseline-sum
plus document-declared-sum). -/
def entriesTotal (entries : List (SType × List (String × ℚ))) (s : SType) : ℚ :=
  (entries.map (fun p => if p.1 = s then (p.2.map (·.2)).sum else 0)).sum

/-- Modelled from the spec: class `Combo` (objectives.py) is not among the
source files; per the spec it holds the explicit substat list and the
modifier vector, the weight of each stat being its modifier-vector total
(read, not mutated). -/
structure Combo where
  types : List SType
  mods : List (SType × ℚ)

/-- The weight a `Combo` objective gives a stat: its modifier total. -/
def Combo.weight (c : Combo) (s : SType) : ℚ := dictGetD c.mods s 0

/-- `from_yaml` on a cookie with a Combo objective: `cookie_mods =
mods.copy()` and `Combo([...], cookie_mods)` (lines 126, 229). -/
def compileCombo (declared : List (SType × List (String × ℚ)))
    (types : List SType) : Combo :=
  ⟨types, accumMods declared⟩

/-- Modelled from the spec: class `EDMG` (objectives.py) is not among the
source files; it is constructed on the cookie's modifier dictionary. -/
structure EDMG where
  mods : List (SType × ℚ)

/-- The per-stat override loop of `parse_objective_requirement` (lines
230-239): `for substat in cookie_mods: cookie_mods[substat] +=
Decimal(requirement.get(substat.value, "0"))` — every key of the dictionary
gets its delta added in place. -/
def applyDeltas (m : List (SType × ℚ)) (delta : SType → ℚ) : List (SType × ℚ) :=
  m.map (fun p => (p.1, p.2 + delta p.1))

/-- `parse_objective_requirement` on an `E[DMG]` objective, with the in-place
mutation of `cookie_mods` made explicit: the updated dictionary is returned
alongside the objective built on that same dictionary. -/
def parse_objective_requirement_edmg (delta : SType → ℚ)
    (cookie_mods : List (SType × ℚ)) : EDMG × List (SType × ℚ) :=
  let cookie_mods := applyDeltas cookie_mods delta
  (⟨cookie_mods⟩, cookie_mods)

/-- The compiled `Requirements` fields relevant to the objective-delta claim:
`self.mods` and `self.objective`. -/
structure CompiledEDMGReqs where
  mods : List (SType × ℚ)
  objective : EDMG

/-- `from_yaml` on a document with one cookie carrying an `E[DMG]` objective
with per-stat deltas: accumulate modifiers, copy them for the cookie, parse
the objective (mutating the copy), and store the resulting dictionary as
`Requirements.mods` (lines 113-126, 152-153, 200-201, 230-234). -/
def from_yaml_edmg (declared : List (SType × List (String × ℚ)))
    (delta : SType → ℚ) : CompiledEDMGReqs :=
  let mods := accumMods declared
  let cookie_mods := mods
  let po := parse_objective_requirement_edmg delta cookie_mods
  ⟨po.2, po.1⟩

/-- The baseline source names for a stat,
`DEFAULT_MODIFIERS.get(Type(substat), {})` keys. -/
def defaultSources (s : SType) : List String :=
  ((DEFAULT_MODIFIERS.find? (fun p => decide (p.1 = s))).map
    (fun p => p.2.map (·.1))).getD []

/-- The modifier-filtering pass of `sanitize` (requirements.py lines 52-59):
drop every declared entry whose source name is a built-in baseline source for
its stat, drop a stat whose list becomes empty, and replace the document's
modifiers section by the filtered dictionary — but only when the filtered
dictionary is non-empty (`if filtered_mods:`), else the original section is
left in place. -/
def sanitizeMods (declared : List (SType × List (String × ℚ))) :
    List (SType × List (String × ℚ)) :=
  let filtered_mods :=
    declared.foldl
      (fun acc p =>
        let filtered_substat := p.2.filter (fun m => decide (m.1 ∉ defaultSources p.1))
        if filtered_substat.isEmpty then acc else acc ++ [(p.1, filtered_substat)])
      []
  if filtered_mods.isEmpty then declared else filtered_mods

/-- A topping whose primary stat is ATK (value at the `INFO` ceiling). -/
def atkTopping (i : ℕ) : Topping := ⟨i, [(SType.ATK, 9)], none⟩

/-- Five ATK toppings: a completed set extending the empty partial set. -/
def fiveATKSet : ToppingSet := ⟨(List.range 5).map atkTopping⟩

/-- Three Solid Almond (DMGRES) toppings and two ATK toppings. -/
def threeDMGRESSet : ToppingSet :=
  ⟨[⟨0, [(SType.DMGRES, 4)], none⟩, ⟨1, [(SType.DMGRES, 4)], none⟩,
    ⟨2, [(SType.DMGRES, 4)], none⟩, ⟨3, [(SType.ATK, 9)], none⟩,
    ⟨4, [(SType.ATK, 9)], none⟩]⟩

/-- The contradictory constraint pair of the spec's example: "ATK ≥ 50" then
"ATK ≤ 30". -/
def contradictoryValid : List ValidReq :=
  [⟨SType.ATK, Op.ge, 50⟩, ⟨SType.ATK, Op.le, 30⟩]

/-- The satisfiable pair of the spec's example: "ATK ≥ 30" and "ATK ≤ 50". -/
def okValid : List ValidReq :=
  [⟨SType.ATK, Op.ge, 30⟩, ⟨SType.ATK, Op.le, 50⟩]

/-- A document modifiers section whose only entry duplicates the built-in
baseline source "Base" for ATK. -/
def dupBaseDoc : List (SType × List (String × ℚ)) := [(SType.ATK, [("Base", 50)])]

/-- An `E[DMG]` objective clause carrying a CRIT% override delta of 10. -/
def deltaCRIT10 : SType → ℚ := fun s => if s = SType.CRIT then 10 else 0

/-- The tightening operation per direction: `max` for ">=", `min` for "<=". -/
def extreme (o : Op) (a b : ℚ) : ℚ :=
  match o with
  | .ge => max a b
  | .le => min a b

/-- `m` is at least as tight as `u` for direction `o`: for a ">=" bound a
larger target is tighter, for a "<=" bound a smaller one. -/
def dominates (o : Op) (m u : ℚ) : Prop :=
  match o with
  | .ge => u ≤ m
  | .le => m ≤ u

/-- The targets of the constraints of `l` under one (stat, direction) key. -/
def targetsOf (l : List ValidReq) (k : SType × Op) : List ℚ :=
  (l.filter (fun v => decide (keyOf v = k))).map (·.target)

/-- The tightest target of `l` under key `k`, when `k` occurs at all. -/
def collapsedVal? (l : List ValidReq) (k : SType × Op) : Option ℚ :=
  match targetsOf l k with
  | [] => none
  | t :: ts => some (ts.foldl (extreme k.2) t)

/-- Combination of a dictionary's stored entry under key `k` with the tightest
target among fresh constraints of that key. -/
def combineO (k : SType × Op) : Option ValidReq → Option ℚ → Option ValidReq
  | none, none => none
  | some w, none => some w
  | none, some t => some ⟨k.1, k.2, t⟩
  | some w, some t => some ⟨k.1, k.2, extreme k.2 w.target t⟩

/-- C1: evaluation of the bound at a failing input.  On the empty partial set
with candidate substat ATK and five slots still free, `best_possible_set_effect`
returns 0, while the completed five-ATK extension achieves a set-bonus total
of 10: the bound underestimates the achievable set-bonus value, so it is not
admissible as the claim states. -/
theorem best_possible_set_effect_underestimates_completion :
    best_possible_set_effect [] [SType.ATK] 5 = 0 ∧
    totalSetBonus fiveATKSet [SType.ATK] = 10 ∧ (0 : ℚ) < 10 := by
  refine ⟨?_, ?_, by norm_num⟩
  · simp [best_possible_set_effect, collectBonuses, combos, matchCount, best23, maxValuesD]
  · simp [totalSetBonus, ToppingSet.set_effect, fiveATKSet, atkTopping, matchCount, firstTier,
      combos, Topping.flavor, List.range, List.range.loop]

/-- C2: evaluation of `realize` at the spec's contradiction example.  With the
constraint list "ATK ≥ 50", "ATK ≤ 30" (and no biscuit), `realize` completes
without error — the `adjusted_valid` dictionary keyed by substat name alone
keeps only the last constraint per stat, so the contradiction check never sees
the pair; the claimed infeasibility error is not raised.  The satisfiable pair
"ATK ≥ 30", "ATK ≤ 50" likewise loses its "≥" bound. -/
theorem realize_drops_contradictory_pair :
    realize contradictoryValid [] = .ok [⟨SType.ATK, Op.le, 30⟩] ∧
    realize okValid [] = .ok [⟨SType.ATK, Op.le, 50⟩] := by
  exact ⟨rfl, rfl⟩

/-- C3 counterexample: with no declared document modifiers and an `E[DMG]`
objective carrying a CRIT% delta of 10, the compiled `Requirements.mods`
stores 23 for CRIT%, not the accumulated baseline-plus-document total 13: the
deltas do flow into the stored per-cookie modifier vector. -/
theorem edmg_requirements_mods_include_deltas_cex :
    dictGetD (from_yaml_edmg [] deltaCRIT10).mods SType.CRIT 0 = 23 ∧
    dictGetD (accumMods []) SType.CRIT 0 = 13 ∧ (23 : ℚ) ≠ 13 := by
  refine ⟨?_, ?_, by norm_num⟩
  · simp [from_yaml_edmg, parse_objective_requirement_edmg, applyDeltas, accumMods, addAll,
      DEFAULT_MODIFIERS, dictAdd, dictGetD, deltaCRIT10]
    norm_num
  · simp [accumMods, addAll, DEFAULT_MODIFIERS, dictAdd, dictGetD]
    norm_num

/-- C4 counterexample: on a document with no declared modifiers and a Combo
objective over [ATK, CRIT%], the compiled Combo weight for CRIT% is 13 (the
sum of the built-in baseline sources 5 and 8), not 5. -/
theorem combo_crit_weight_is_thirteen_cex :
    (compileCombo [] [SType.ATK, SType.CRIT]).weight SType.CRIT = 13 ∧
    ((13 : ℚ) ≠ 5) := by
  refine ⟨?_, by norm_num⟩
  simp [compileCombo, Combo.weight, accumMods, addAll, DEFAULT_MODIFIERS, dictAdd, dictGetD]
  norm_num

/-- C5: evaluation of `sanitize`'s modifier filtering at a failing input.  A
document whose only declared modifier duplicates the built-in baseline source
"Base" for ATK is returned unchanged (the `if filtered_mods:` guard keeps the
original section when everything filters away), and feeding it to the
accumulator counts the ATK baseline twice: 100 + 50 = 150. -/
theorem sanitize_keeps_all_duplicate_baseline_entries :
    sanitizeMods dupBaseDoc = dupBaseDoc ∧ "Base" ∈ defaultSources SType.ATK ∧
    dictGetD (accumMods dupBaseDoc) SType.ATK 0 = 150 := by
  refine ⟨by rfl, by decide, ?_⟩
  simp [accumMods, addAll, DEFAULT_MODIFIERS, dupBaseDoc, dictAdd, dictGetD]
  norm_num

/-- C9 counterexample: two separately constructed toppings (distinct
allocation identities 1 and 2) with identical substat lists and identical
resonance compare equal under `Topping.__eq__` — the claim that such
instances are not equal is false. -/
theorem topping_pyEq_content_equal_instances_cex :
    Topping.pyEq ⟨1, [(SType.ATK, 9)], none⟩ ⟨2, [(SType.ATK, 9)], none⟩ = true ∧
    (1 : ℕ) ≠ 2 := by
  exact ⟨rfl, by decide⟩

/-- C9 as amended: `Topping.__eq__` is content equality (same substat list and
same resonance, regardless of allocation), while only `Topping.__hash__` is by
allocation identity — hash-based containers can therefore hold
structurally-equal duplicates even though `==` calls them equal. -/
theorem topping_eq_by_content_hash_by_id :
    ∀ a b : Topping,
      (Topping.pyEq a b = true ↔ a.substats = b.substats ∧ a.resonance = b.resonance) ∧
      Topping.pyHash a = a.oid := by
  intro a b
  exact ⟨by simp [Topping.pyEq], rfl⟩

/-- A fold whose every step leaves the accumulator unchanged returns it. -/
theorem foldl_id_of_steps {α β : Type} (l : List β) (f : α → β → α) (st : α)
    (h : ∀ st b, b ∈ l → f st b = st) : l.foldl f st = st := by
  induction l generalizing st with
  | nil => rfl
  | cons b l ih =>
    rw [List.foldl_cons, h st b (List.mem_cons_self _ _)]
    exact ih st (fun st b hb => h st b (List.mem_cons_of_mem _ hb))

/-- When no schedule entry's requirement is met by the committed toppings,
every tier dictionary stays empty. -/
theorem collectBonuses_nil_of_unmet (combo : List Topping) (substats : List SType)
    (h : ∀ s ∈ substats, ∀ rb ∈ combos s, matchCount combo s < rb.1) :
    collectBonuses combo substats = ⟨[], [], [], []⟩ := by
  unfold collectBonuses
  apply foldl_id_of_steps
  intro st s hs
  apply foldl_id_of_steps
  intro st rb hrb
  have : ¬ rb.1 ≤ matchCount combo s := by
    have := h s hs rb hrb
    omega
  simp [this]

/-- C10: `best_possible_set_effect` never reads its `non_match_count`
argument — any two values give the same bound — and the bound credits only
bonus tiers whose count requirement is already met by the committed toppings:
when no tier requirement is met, the bound is 0 however many free slots
remain. -/
theorem best_possible_set_effect_ignores_non_match_count :
    (∀ (combo : List Topping) (substats : List SType) (n₁ n₂ : ℕ),
      best_possible_set_effect combo substats n₁ = best_possible_set_effect combo substats n₂) ∧
    (∀ (combo : List Topping) (substats : List SType) (n : ℕ),
      (∀ s ∈ substats, ∀ rb ∈ combos s, matchCount combo s < rb.1) →
        best_possible_set_effect combo substats n = 0) := by
  constructor
  · exact fun _ _ _ _ => rfl
  · intro combo substats n h
    rw [best_possible_set_effect, collectBonuses_nil_of_unmet combo substats h]
    simp [best23, maxValuesD]

/-- The scan returns `(0, 0)` when no tier is satisfied. -/
theorem firstTier_unsat (count : ℕ) (r : List (ℕ × ℚ)) (h : ∀ p ∈ r, count < p.1) :
    firstTier count r = (0, 0) := by
  induction r with
  | nil => rfl
  | cons q r ih =>
    obtain ⟨a, b⟩ := q
    have ha : ¬ a ≤ count := by
      have := h (a, b) (List.mem_cons_self _ _)
      omega
    rw [firstTier, if_neg ha]
    exact ih (fun p hp => h p (List.mem_cons_of_mem _ hp))

/-- On a strictly descending schedule with at least one satisfied tier, the
scan returns a satisfied schedule entry of maximal threshold. -/
theorem firstTier_sat (count : ℕ) (r : List (ℕ × ℚ))
    (hr : r.Pairwise (fun a b => b.1 < a.1)) {p : ℕ × ℚ} (hp : p ∈ r) (hple : p.1 ≤ count) :
    firstTier count r ∈ r ∧ (firstTier count r).1 ≤ count ∧ p.1 ≤ (firstTier count r).1 := by
  induction r with
  | nil => cases hp
  | cons q r ih =>
    obtain ⟨a, b⟩ := q
    by_cases hq : a ≤ count
    · rw [firstTier, if_pos hq]
      refine ⟨List.mem_cons_self _ _, hq, ?_⟩
      rcases List.mem_cons.mp hp with h1 | h1
      · rw [h1]
      · exact le_of_lt ((List.pairwise_cons.mp hr).1 p h1)
    · have hpr : p ∈ r := by
        rcases List.mem_cons.mp hp with h1 | h1
        · exfalso; apply hq; rw [h1] at hple; exact hple
        · exact h1
      rw [firstTier, if_neg hq]
      obtain ⟨h1, h2, h3⟩ := ih (List.pairwise_cons.mp hr).2 hpr
      exact ⟨List.mem_cons_of_mem _ h1, h2, h3⟩

/-- Every `INFO` schedule, reversed, has strictly decreasing thresholds. -/
theorem combos_reverse_sorted :
    ∀ s : SType, ((combos s).reverse).Pairwise (fun a b => b.1 < a.1) := by
  decide

/-- C8: `set_effect` returns the pair of the highest-threshold tier of the
stat's schedule whose item-count requirement is met by the members whose
primary stat equals the queried stat (and `(0, 0)` when none is); in
particular a set with exactly 3 DMGRES members, whose schedule is
[(2,3),(3,7),(5,8),(6,10)], reports `(3, 7)`. -/
theorem set_effect_highest_satisfied_tier :
    (∀ (ts : ToppingSet) (s : SType),
      ((∀ rb ∈ combos s, matchCount ts.toppings s < rb.1) → ts.set_effect s = (0, 0)) ∧
      (∀ rb ∈ combos s, rb.1 ≤ matchCount ts.toppings s →
        ts.set_effect s ∈ combos s ∧ (ts.set_effect s).1 ≤ matchCount ts.toppings s ∧
          rb.1 ≤ (ts.set_effect s).1)) ∧
    ToppingSet.set_effect threeDMGRESSet SType.DMGRES = (3, 7) := by
  constructor
  · intro ts s
    constructor
    · intro h
      exact firstTier_unsat _ _ (fun p hp => h p (List.mem_reverse.mp hp))
    · intro rb hrb hle
      have h := firstTier_sat (matchCount ts.toppings s) (combos s).reverse
        (combos_reverse_sorted s) (List.mem_reverse.mpr hrb) hle
      exact ⟨List.mem_reverse.mp h.1, h.2.1, h.2.2⟩
  · simp [ToppingSet.set_effect, threeDMGRESSet, matchCount, firstTier, combos, Topping.flavor]

/-- `d[s] += v` raises the value read back for `s` by `v` and leaves every
other key's value alone. -/
theorem dictGetD_dictAdd (m : List (SType × ℚ)) (s : SType) (v : ℚ) (s' : SType) :
    dictGetD (dictAdd m s v) s' 0 = dictGetD m s' 0 + (if s = s' then v else 0) := by
  induction m with
  | nil => by_cases h : s = s' <;> simp [dictAdd, dictGetD, h]
  | cons p m ih =>
    by_cases hp : p.1 = s
    · have hiff : (p.1 = s') ↔ (s = s') := by rw [hp]
      by_cases hps : p.1 = s'
      · have hss : s = s' := hiff.mp hps
        simp [dictAdd, dictGetD, hp, hps, hss]
      · have hss : ¬ s = s' := fun h => hps (hiff.mpr h)
        have hss2 : ¬ s' = s := fun h => hss h.symm
        simp [dictAdd, dictGetD, hp, hps, hss, hss2]
    · by_cases hps : p.1 = s'
      · have hss : ¬ s = s' := fun he => hp (he ▸ hps)
        have hss2 : ¬ s' = s := fun h => hss h.symm
        simp [dictAdd, dictGetD, hp, hps, hss, hss2]
      · simp [dictAdd, dictGetD, hp, hps, ih]

/-- Folding one stat's buff values into the dictionary adds their sum at that
stat. -/
theorem getD_fold_values (vs : List (String × ℚ)) (k : SType) (m : List (SType × ℚ)) (s : SType) :
    dictGetD (vs.foldl (fun m sv => dictAdd m k sv.2) m) s 0 =
      dictGetD m s 0 + (if k = s then (vs.map (·.2)).sum else 0) := by
  induction vs generalizing m with
  | nil => simp
  | cons sv vs ih =>
    rw [List.foldl_cons, ih, dictGetD_dictAdd]
    by_cases h : k = s
    · simp only [h, if_pos]
      simp
      ring
    · simp [h]

/-- Accumulating a whole buff declaration list adds, per stat, the plain sum
of the declared values (the Modifier Accumulator is purely additive). -/
theorem getD_addAll (entries : List (SType × List (String × ℚ))) (m : List (SType × ℚ)) (s : SType) :
    dictGetD (addAll m entries) s 0 = dictGetD m s 0 + entriesTotal entries s := by
  induction entries generalizing m with
  | nil => simp [addAll, entriesTotal]
  | cons p entries ih =>
    rw [addAll, List.foldl_cons]
    rw [show (List.foldl (fun m p => p.2.foldl (fun m sv => dictAdd m p.1 sv.2) m)
      (p.2.foldl (fun m sv => dictAdd m p.1 sv.2) m) entries) =
      addAll (p.2.foldl (fun m sv => dictAdd m p.1 sv.2) m) entries from rfl]
    rw [ih, getD_fold_values]
    simp [entriesTotal]
    ring

/-- The accumulated modifier total of a stat is baseline-sum plus
document-declared-sum. -/
theorem getD_accumMods (declared : List (SType × List (String × ℚ))) (s : SType) :
    dictGetD (accumMods declared) s 0 =
      entriesTotal DEFAULT_MODIFIERS s + entriesTotal declared s := by
  rw [accumMods, getD_addAll, getD_addAll]
  simp [dictGetD]

/-- C4 as amended: each Combo weight equals the sum of built-in baseline
values plus document-declared values for that stat; on a document with no
declared modifiers the weight for ATK is 100 and for CRIT% it is 13 (the two
baseline sources 5 and 8), not 5. -/
theorem combo_weight_is_accumulated_total :
    (∀ (declared : List (SType × List (String × ℚ))) (types : List SType) (s : SType),
      (compileCombo declared types).weight s =
        entriesTotal DEFAULT_MODIFIERS s + entriesTotal declared s) ∧
    (compileCombo [] [SType.ATK, SType.CRIT]).weight SType.ATK = 100 ∧
    (compileCombo [] [SType.ATK, SType.CRIT]).weight SType.CRIT = 13 := by
  refine ⟨fun declared types s => getD_accumMods declared s, ?_, ?_⟩
  · simp [compileCombo, Combo.weight, accumMods, addAll, DEFAULT_MODIFIERS, dictAdd, dictGetD]
  · simp [compileCombo, Combo.weight, accumMods, addAll, DEFAULT_MODIFIERS, dictAdd, dictGetD]
    norm_num

/-- Adding the objective's per-stat deltas over every key of the dictionary
raises each keyed stat's value by its delta. -/
theorem getD_applyDeltas (m : List (SType × ℚ)) (δ : SType → ℚ) (s : SType) :
    dictGetD (applyDeltas m δ) s 0 =
      dictGetD m s 0 + (if hasKey m s then δ s else 0) := by
  induction m with
  | nil => simp [applyDeltas, dictGetD, hasKey]
  | cons p m ih =>
    by_cases hp : p.1 = s
    · simp only [applyDeltas, List.map_cons, dictGetD, hasKey]
      simp [hp]
    · simp only [applyDeltas, List.map_cons, dictGetD, hasKey] at ih ⊢
      simp [hp, ih]

/-- C3 as amended: the objective's per-stat deltas are added in place into
the cookie's own copy of the modifier dictionary, and that same mutated
dictionary is what `from_yaml` stores as `Requirements.mods` — so the stored
value of every keyed stat is the accumulated baseline-plus-document total
PLUS the objective's delta, and the objective's vector is the very same
dictionary (no separate copy).  Sibling cookies are unaffected because the
copy is taken from the document-level accumulator per cookie. -/
theorem edmg_deltas_added_to_stored_mods :
    (∀ (declared : List (SType × List (String × ℚ))) (delta : SType → ℚ) (s : SType),
      dictGetD (from_yaml_edmg declared delta).mods s 0 =
        dictGetD (accumMods declared) s 0 +
          (if hasKey (accumMods declared) s then delta s else 0)) ∧
    (∀ (declared : List (SType × List (String × ℚ))) (delta : SType → ℚ),
      (from_yaml_edmg declared delta).objective.mods = (from_yaml_edmg declared delta).mods) := by
  exact ⟨fun declared delta s => getD_applyDeltas _ _ _, fun _ _ => rfl⟩

/-- The requirement loop accepts a cookie exactly when every relative target
is an already-seen cookie name. -/
theorem checkRelRefs_ok_iff (n : String) (seen rs : List String) :
    checkRelRefs n seen rs = .ok () ↔ ∀ r ∈ rs, r ∈ seen := by
  induction rs with
  | nil => simp [checkRelRefs]
  | cons r rs ih =>
    by_cases h : r ∈ seen
    · simp [checkRelRefs, h, ih]
    · simp [checkRelRefs, h]

/-- The cookie loop succeeds exactly when every cookie's relative targets are
names already seen before it, starting from the given seen set. -/
theorem from_yaml_relative_ok_iff (cs : List CookieBlock) :
    ∀ seen : List String,
      (∃ out, from_yaml_relative seen cs = .ok out) ↔
        ∀ pre c post, cs = pre ++ c :: post →
          ∀ r ∈ c.relRefs, r ∈ seen ++ pre.map CookieBlock.name := by
  induction cs with
  | nil =>
    intro seen
    constructor
    · intro _ pre c post heq
      exact absurd heq (by simp)
    · intro _
      exact ⟨seen, rfl⟩
  | cons c cs ih =>
    intro seen
    cases hchk : checkRelRefs c.name seen c.relRefs with
    | ok u =>
      cases u
      have hrefs : ∀ r ∈ c.relRefs, r ∈ seen := (checkRelRefs_ok_iff _ _ _).mp hchk
      have hstep : from_yaml_relative seen (c :: cs) = from_yaml_relative (seen ++ [c.name]) cs := by
        simp [from_yaml_relative, hchk]
      constructor
      · intro hok pre c' post heq r hr
        cases pre with
        | nil =>
          simp only [List.nil_append, List.cons.injEq] at heq
          obtain ⟨hc, _⟩ := heq
          simp only [List.map_nil, List.append_nil]
          exact hrefs r (hc ▸ hr)
        | cons p pre =>
          simp only [List.cons_append, List.cons.injEq] at heq
          obtain ⟨hc, hcs⟩ := heq
          rw [hstep] at hok
          have := (ih (seen ++ [c.name])).mp hok pre c' post hcs r hr
          simp only [List.map_cons, ← hc]
          simpa [List.append_assoc] using this
      · intro hall
        rw [hstep]
        apply (ih (seen ++ [c.name])).mpr
        intro pre c' post heq r hr
        have := hall (c :: pre) c' post (by rw [heq]; rfl) r hr
        simpa [List.append_assoc] using this
    | error e =>
      have hstep : from_yaml_relative seen (c :: cs) = .error e := by
        simp [from_yaml_relative, hchk]
      constructor
      · intro hok
        obtain ⟨out, hout⟩ := hok
        rw [hstep] at hout
        cases hout
      · intro hall
        exfalso
        have hrefs : ∀ r ∈ c.relRefs, r ∈ seen := by
          intro r hr
          have := hall [] c cs rfl r hr
          simpa using this
        rw [(checkRelRefs_ok_iff c.name seen c.relRefs).mpr hrefs] at hchk
        cases hchk

/-- C7: document compilation succeeds on the relative-reference checks
exactly when every `Relative` target names a cookie declared strictly earlier
in document order; any forward reference or self-reference (the cookie's own
name is added only after its requirements are checked) makes `from_yaml`
raise a compile error rather than silently skip. -/
theorem relative_ref_requires_previously_compiled_cookie :
    ∀ cs : List CookieBlock,
      ((∃ names, from_yaml_relative [] cs = .ok names) ↔
        ∀ pre c post, cs = pre ++ c :: post →
          ∀ r ∈ c.relRefs, r ∈ pre.map CookieBlock.name) ∧
      (∀ pre c post r, cs = pre ++ c :: post → r ∈ c.relRefs →
        r ∉ pre.map CookieBlock.name → ∃ e, from_yaml_relative [] cs = .error e) := by
  intro cs
  have h1 := from_yaml_relative_ok_iff cs []
  simp only [List.nil_append] at h1
  refine ⟨h1, ?_⟩
  intro pre c post r heq hr hnot
  cases hres : from_yaml_relative [] cs with
  | ok out => exact absurd (h1.mp ⟨out, hres⟩ pre c post heq r hr) hnot
  | error e => exact ⟨e, rfl⟩


theorem pick_eq_extreme (w v : ValidReq) (h : keyOf w = keyOf v) :
    pick w v = ⟨v.substat, v.op, extreme v.op w.target v.target⟩ := by
  obtain ⟨ws, wo, wt⟩ := w
  obtain ⟨vs, vo, vt⟩ := v
  simp only [keyOf, Prod.mk.injEq] at h
  obtain ⟨hs, ho⟩ := h
  subst hs
  subst ho
  cases wo
  · by_cases hlt : wt < vt
    · simp [pick, extreme, hlt, max_eq_right (le_of_lt hlt)]
    · simp [pick, extreme, hlt, max_eq_left (not_lt.mp hlt)]
  · by_cases hlt : vt < wt
    · simp [pick, extreme, hlt, min_eq_right (le_of_lt hlt)]
    · simp [pick, extreme, hlt, min_eq_left (not_lt.mp hlt)]

theorem keyOf_pick (w v : ValidReq) (h : keyOf w = keyOf v) :
    keyOf (pick w v) = keyOf v := by
  rw [pick_eq_extreme w v h]
  rfl

theorem lookupReq_some_key (m : List ValidReq) (k : SType × Op) (w : ValidReq)
    (h : lookupReq m k = some w) : keyOf w = k ∧ w ∈ m := by
  induction m with
  | nil => cases h
  | cons x xs ih =>
    rw [lookupReq] at h
    by_cases hx : keyOf x = k
    · rw [if_pos hx] at h
      cases h
      exact ⟨hx, List.mem_cons_self _ _⟩
    · rw [if_neg hx] at h
      obtain ⟨h1, h2⟩ := ih h
      exact ⟨h1, List.mem_cons_of_mem _ h2⟩

theorem lookupReq_insertReq (acc : List ValidReq) (v : ValidReq) (k : SType × Op) :
    lookupReq (insertReq acc v) k =
      if keyOf v = k then
        match lookupReq acc k with
        | some w => some (pick w v)
        | none => some v
      else lookupReq acc k := by
  induction acc with
  | nil => by_cases hk : keyOf v = k <;> simp [insertReq, lookupReq, hk]
  | cons w ws ih =>
    by_cases hw : keyOf w = keyOf v
    · rw [insertReq, if_pos hw]
      by_cases hk : keyOf v = k
      · rw [lookupReq, if_pos ((keyOf_pick w v hw).trans hk), if_pos hk,
          lookupReq, if_pos (hw.trans hk)]
      · rw [lookupReq, if_neg (fun he => hk (((keyOf_pick w v hw).symm.trans he))), if_neg hk,
          lookupReq, if_neg (fun he => hk ((hw.symm.trans he)))]
    · rw [insertReq, if_neg hw]
      by_cases hk : keyOf w = k
      · have hvk : ¬ keyOf v = k := fun he => hw (hk.trans he.symm)
        rw [lookupReq, if_pos hk, if_neg hvk, lookupReq, if_pos hk]
      · rw [lookupReq, if_neg hk, ih, lookupReq, if_neg hk]

theorem extreme_assoc (o : Op) (a b c : ℚ) :
    extreme o (extreme o a b) c = extreme o a (extreme o b c) := by
  cases o
  · simp [extreme, max_assoc]
  · simp [extreme, min_assoc]

theorem foldl_extreme_pull (o : Op) (a : ℚ) (t : ℚ) (ts : List ℚ) :
    ts.foldl (extreme o) (extreme o a t) = extreme o a (ts.foldl (extreme o) t) := by
  induction ts generalizing t with
  | nil => rfl
  | cons u ts ih =>
    rw [List.foldl_cons, List.foldl_cons, extreme_assoc]
    exact ih (extreme o t u)


theorem lookupReq_insertReq_some (acc : List ValidReq) (v : ValidReq) (k : SType × Op)
    (w : ValidReq) (h : lookupReq acc k = some w) (hk : keyOf v = k) :
    lookupReq (insertReq acc v) k = some (pick w v) := by
  rw [lookupReq_insertReq, if_pos hk, h]

theorem lookupReq_insertReq_none (acc : List ValidReq) (v : ValidReq) (k : SType × Op)
    (h : lookupReq acc k = none) (hk : keyOf v = k) :
    lookupReq (insertReq acc v) k = some v := by
  rw [lookupReq_insertReq, if_pos hk, h]

theorem lookupReq_insertReq_other (acc : List ValidReq) (v : ValidReq) (k : SType × Op)
    (hk : ¬ keyOf v = k) :
    lookupReq (insertReq acc v) k = lookupReq acc k := by
  rw [lookupReq_insertReq, if_neg hk]

theorem lookupReq_collapse_fold (l : List ValidReq) :
    ∀ (acc : List ValidReq) (k : SType × Op),
      lookupReq (l.foldl insertReq acc) k = combineO k (lookupReq acc k) (collapsedVal? l k) := by
  induction l with
  | nil =>
    intro acc k
    cases h : lookupReq acc k <;> simp [collapsedVal?, targetsOf, combineO, h]
  | cons v l ih =>
    intro acc k
    rw [List.foldl_cons, ih (insertReq acc v) k]
    by_cases hk : keyOf v = k
    · subst hk
      have htg : targetsOf (v :: l) (keyOf v) = v.target :: targetsOf l (keyOf v) := by
        simp [targetsOf]
      cases hacc : lookupReq acc (keyOf v) with
      | none =>
        rw [lookupReq_insertReq_none acc v _ hacc rfl]
        cases htl : targetsOf l (keyOf v) with
        | nil =>
          have h1 : collapsedVal? l (keyOf v) = none := by simp [collapsedVal?, htl]
          have h2 : collapsedVal? (v :: l) (keyOf v) = some v.target := by
            simp [collapsedVal?, htg, htl]
          rw [h1, h2]
          rfl
        | cons t ts =>
          have h1 : collapsedVal? l (keyOf v) = some (ts.foldl (extreme (keyOf v).2) t) := by
            simp [collapsedVal?, htl]
          have h2 : collapsedVal? (v :: l) (keyOf v) =
              some (extreme (keyOf v).2 v.target (ts.foldl (extreme (keyOf v).2) t)) := by
            simp only [collapsedVal?, htg, htl, List.foldl_cons]
            rw [foldl_extreme_pull]
          rw [h1, h2]
          rfl
      | some w =>
        have hkw : keyOf w = keyOf v := (lookupReq_some_key _ _ _ hacc).1
        rw [lookupReq_insertReq_some acc v _ w hacc rfl, pick_eq_extreme w v hkw]
        cases htl : targetsOf l (keyOf v) with
        | nil =>
          have h1 : collapsedVal? l (keyOf v) = none := by simp [collapsedVal?, htl]
          have h2 : collapsedVal? (v :: l) (keyOf v) = some v.target := by
            simp [collapsedVal?, htg, htl]
          rw [h1, h2]
          rfl
        | cons t ts =>
          have h1 : collapsedVal? l (keyOf v) = some (ts.foldl (extreme (keyOf v).2) t) := by
            simp [collapsedVal?, htl]
          have h2 : collapsedVal? (v :: l) (keyOf v) =
              some (extreme (keyOf v).2 v.target (ts.foldl (extreme (keyOf v).2) t)) := by
            simp only [collapsedVal?, htg, htl, List.foldl_cons]
            rw [foldl_extreme_pull]
          rw [h1, h2]
          simp [combineO, keyOf, extreme_assoc]
    · have htg : targetsOf (v :: l) k = targetsOf l k := by simp [targetsOf, hk]
      rw [lookupReq_insertReq_other acc v k hk, show collapsedVal? (v :: l) k = collapsedVal? l k by
        simp only [collapsedVal?, htg]]


theorem validreq_eq_of (w v : ValidReq) (h1 : keyOf w = keyOf v) (h2 : w.target = v.target) :
    w = v := by
  obtain ⟨ws, wo, wt⟩ := w
  obtain ⟨vs, vo, vt⟩ := v
  simp only [keyOf, Prod.mk.injEq] at h1
  simp only at h2
  simp [h1.1, h1.2, h2]

theorem mem_keys_insertReq (acc : List ValidReq) (v : ValidReq) (k : SType × Op) :
    k ∈ (insertReq acc v).map keyOf ↔ k ∈ acc.map keyOf ∨ k = keyOf v := by
  induction acc with
  | nil => simp [insertReq]
  | cons w ws ih =>
    by_cases hw : keyOf w = keyOf v
    · rw [insertReq, if_pos hw, List.map_cons, keyOf_pick w v hw, List.map_cons, hw]
      simp only [List.mem_cons]
      tauto
    · simp only [insertReq, if_neg hw, List.map_cons, List.mem_cons, ih]
      tauto

theorem nodup_keys_insertReq (acc : List ValidReq) (v : ValidReq)
    (h : (acc.map keyOf).Nodup) : ((insertReq acc v).map keyOf).Nodup := by
  induction acc with
  | nil => simp [insertReq]
  | cons w ws ih =>
    rw [List.map_cons, List.nodup_cons] at h
    obtain ⟨hw1, hw2⟩ := h
    by_cases hw : keyOf w = keyOf v
    · rw [insertReq, if_pos hw, List.map_cons, List.nodup_cons, keyOf_pick w v hw]
      exact ⟨hw ▸ hw1, hw2⟩
    · rw [insertReq, if_neg hw, List.map_cons, List.nodup_cons]
      refine ⟨?_, ih hw2⟩
      intro hmem
      rcases (mem_keys_insertReq ws v (keyOf w)).mp hmem with hm | hm
      · exact hw1 hm
      · exact hw hm

theorem nodup_keys_collapse (l : List ValidReq) : ((collapse l).map keyOf).Nodup := by
  suffices h : ∀ acc, (acc.map keyOf).Nodup → ((l.foldl insertReq acc).map keyOf).Nodup by
    exact h [] (by simp)
  induction l with
  | nil => exact fun acc h => h
  | cons v l ih =>
    intro acc h
    rw [List.foldl_cons]
    exact ih _ (nodup_keys_insertReq acc v h)

theorem mem_iff_lookup (m : List ValidReq) (h : (m.map keyOf).Nodup) (v : ValidReq) :
    v ∈ m ↔ lookupReq m (keyOf v) = some v := by
  induction m with
  | nil => simp [lookupReq]
  | cons w ws ih =>
    rw [List.map_cons, List.nodup_cons] at h
    obtain ⟨hw1, hw2⟩ := h
    by_cases hk : keyOf w = keyOf v
    · rw [lookupReq, if_pos hk]
      constructor
      · intro hm
        rcases List.mem_cons.mp hm with he | hm2
        · rw [he]
        · exact absurd (hk ▸ List.mem_map_of_mem keyOf hm2) hw1
      · intro hl
        injection hl with he
        rw [← he]
        exact List.mem_cons_self _ _
    · rw [lookupReq, if_neg hk, List.mem_cons, ih hw2]
      constructor
      · rintro (he | hm)
        · exact absurd (congrArg keyOf he).symm hk
        · exact hm
      · exact fun hm => Or.inr hm

theorem dominates_refl (o : Op) (a : ℚ) : dominates o a a := by
  cases o <;> simp [dominates]

theorem dominates_trans (o : Op) (a b c : ℚ)
    (h1 : dominates o a b) (h2 : dominates o b c) : dominates o a c := by
  cases o
  · exact le_trans h2 h1
  · exact le_trans h1 h2

theorem dominates_antisymm (o : Op) (a b : ℚ)
    (h1 : dominates o a b) (h2 : dominates o b a) : a = b := by
  cases o
  · exact le_antisymm h2 h1
  · exact le_antisymm h1 h2

theorem dominates_extreme_left (o : Op) (a b : ℚ) : dominates o (extreme o a b) a := by
  cases o
  · exact le_max_left a b
  · exact min_le_left a b

theorem dominates_extreme_right (o : Op) (a b : ℚ) : dominates o (extreme o a b) b := by
  cases o
  · exact le_max_right a b
  · exact min_le_right a b

theorem foldl_extreme_mem (o : Op) (t : ℚ) (ts : List ℚ) :
    ts.foldl (extreme o) t ∈ t :: ts := by
  induction ts generalizing t with
  | nil => simp
  | cons u ts ih =>
    rw [List.foldl_cons]
    have hc : extreme o t u = t ∨ extreme o t u = u := by
      cases o
      · exact max_choice t u
      · exact min_choice t u
    rcases List.mem_cons.mp (ih (extreme o t u)) with he | hm
    · rcases hc with h1 | h1
      · rw [he, h1]
        exact List.mem_cons_self _ _
      · rw [he, h1]
        exact List.mem_cons_of_mem _ (List.mem_cons_self _ _)
    · exact List.mem_cons_of_mem _ (List.mem_cons_of_mem _ hm)

theorem foldl_extreme_dom (o : Op) (t : ℚ) (ts : List ℚ) :
    ∀ u ∈ t :: ts, dominates o (ts.foldl (extreme o) t) u := by
  induction ts generalizing t with
  | nil =>
    intro u hu
    rw [List.mem_singleton] at hu
    rw [hu]
    exact dominates_refl o t
  | cons w ts ih =>
    intro u hu
    rw [List.foldl_cons]
    rcases List.mem_cons.mp hu with he | hu2
    · rw [he]
      exact dominates_trans o _ _ _
        (ih (extreme o t w) (extreme o t w) (List.mem_cons_self _ _))
        (dominates_extreme_left o t w)
    · rcases List.mem_cons.mp hu2 with he2 | hu3
      · rw [he2]
        exact dominates_trans o _ _ _
          (ih (extreme o t w) (extreme o t w) (List.mem_cons_self _ _))
          (dominates_extreme_right o t w)
      · exact ih (extreme o t w) u (List.mem_cons_of_mem _ hu3)

theorem mem_targetsOf (l : List ValidReq) (k : SType × Op) (u : ℚ) :
    u ∈ targetsOf l k ↔ ∃ w ∈ l, keyOf w = k ∧ w.target = u := by
  simp only [targetsOf, List.mem_map, List.mem_filter, decide_eq_true_eq]
  tauto

theorem collapsedVal?_eq_some_iff (l : List ValidReq) (k : SType × Op) (t : ℚ) :
    collapsedVal? l k = some t ↔
      t ∈ targetsOf l k ∧ ∀ u ∈ targetsOf l k, dominates k.2 t u := by
  cases htl : targetsOf l k with
  | nil => simp [collapsedVal?, htl]
  | cons a ts =>
    rw [show collapsedVal? l k = some (ts.foldl (extreme k.2) a) from by
      simp [collapsedVal?, htl]]
    constructor
    · intro h
      injection h with he
      rw [← he]
      exact ⟨foldl_extreme_mem k.2 a ts, foldl_extreme_dom k.2 a ts⟩
    · rintro ⟨hmem, hdom⟩
      have h1 := foldl_extreme_mem k.2 a ts
      have h2 := foldl_extreme_dom k.2 a ts
      exact congrArg some (dominates_antisymm k.2 t _ (hdom _ h1) (h2 t hmem)).symm

theorem mem_collapse_iff (l : List ValidReq) (v : ValidReq) :
    v ∈ collapse l ↔
      v ∈ l ∧ ∀ w ∈ l, keyOf w = keyOf v → dominates v.op v.target w.target := by
  rw [mem_iff_lookup (collapse l) (nodup_keys_collapse l) v]
  rw [show collapse l = List.foldl insertReq [] l from rfl]
  rw [lookupReq_collapse_fold l [] (keyOf v)]
  cases hcv : collapsedVal? l (keyOf v) with
  | none =>
    constructor
    · intro h
      exact absurd h (by simp [combineO, lookupReq])
    · rintro ⟨hv, _⟩
      have hmem : v.target ∈ targetsOf l (keyOf v) :=
        (mem_targetsOf l (keyOf v) v.target).mpr ⟨v, hv, rfl, rfl⟩
      cases htl : targetsOf l (keyOf v) with
      | nil => rw [htl] at hmem; cases hmem
      | cons a ts =>
        rw [show collapsedVal? l (keyOf v) = some (ts.foldl (extreme (keyOf v).2) a) from by
          simp [collapsedVal?, htl]] at hcv
        cases hcv
  | some t =>
    have hred : combineO (keyOf v) (lookupReq [] (keyOf v)) (some t) =
        some ⟨v.substat, v.op, t⟩ := rfl
    rw [hred, Option.some.injEq]
    constructor
    · intro he
      have ht : t = v.target := congrArg ValidReq.target he
      rw [ht] at hcv
      obtain ⟨hmem, hdom⟩ := (collapsedVal?_eq_some_iff l (keyOf v) v.target).mp hcv
      obtain ⟨w, hw, hkw, htw⟩ := (mem_targetsOf l (keyOf v) v.target).mp hmem
      refine ⟨validreq_eq_of w v hkw htw ▸ hw, ?_⟩
      intro w2 hw2 hk2
      have : w2.target ∈ targetsOf l (keyOf v) :=
        (mem_targetsOf l (keyOf v) w2.target).mpr ⟨w2, hw2, hk2, rfl⟩
      exact hdom w2.target this
    · rintro ⟨hv, hdom⟩
      have : collapsedVal? l (keyOf v) = some v.target := by
        apply (collapsedVal?_eq_some_iff l (keyOf v) v.target).mpr
        refine ⟨(mem_targetsOf l (keyOf v) v.target).mpr ⟨v, hv, rfl, rfl⟩, ?_⟩
        intro u hu
        obtain ⟨w, hw, hkw, htw⟩ := (mem_targetsOf l (keyOf v) u).mp hu
        exact htw ▸ hdom w hw hkw
      rw [hcv] at this
      injection this with ht
      rw [ht]

theorem insertReq_of_not_mem_keys (acc : List ValidReq) (v : ValidReq)
    (h : keyOf v ∉ acc.map keyOf) : insertReq acc v = acc ++ [v] := by
  induction acc with
  | nil => rfl
  | cons w ws ih =>
    simp only [List.map_cons, List.mem_cons, not_or] at h
    rw [insertReq, if_neg (fun he => h.1 he.symm), ih h.2]
    rfl

theorem foldl_insertReq_eq_append (m : List ValidReq) :
    ∀ acc : List ValidReq, ((acc ++ m).map keyOf).Nodup → m.foldl insertReq acc = acc ++ m := by
  induction m with
  | nil =>
    intro acc _
    simp
  | cons v m ih =>
    intro acc h
    have hv : keyOf v ∉ acc.map keyOf := by
      intro hmem
      have hd := List.disjoint_of_nodup_append (by rw [← List.map_append]; exact h)
      exact hd hmem (by simp)
    rw [List.foldl_cons, insertReq_of_not_mem_keys acc v hv]
    have hra : (acc ++ [v]) ++ m = acc ++ (v :: m) := by simp
    rw [ih (acc ++ [v]) (by rw [hra]; exact h), hra]

theorem collapse_of_nodup_keys (m : List ValidReq) (h : (m.map keyOf).Nodup) :
    collapse m = m := by
  have := foldl_insertReq_eq_append m [] (by simpa using h)
  simpa [collapse] using this

/-- C6: the duplicate-collapse step of `realize` keeps, per (stat, direction)
key, exactly the tightest constraint (the one whose target dominates every
same-key target: maximal for ">=", minimal for "<="); the collapsed set is
invariant under any permutation of the input constraint list; and collapsing
twice yields the same result as collapsing once. -/
theorem collapse_tightest_order_independent_idempotent :
    (∀ (l : List ValidReq) (v : ValidReq),
      v ∈ collapse l ↔
        v ∈ l ∧ ∀ w ∈ l, keyOf w = keyOf v → dominates v.op v.target w.target) ∧
    (∀ (l₁ l₂ : List ValidReq), l₁.Perm l₂ → ∀ v : ValidReq,
      (v ∈ collapse l₁ ↔ v ∈ collapse l₂)) ∧
    (∀ l : List ValidReq, collapse (collapse l) = collapse l) := by
  refine ⟨mem_collapse_iff, ?_, ?_⟩
  · intro l₁ l₂ hp v
    rw [mem_collapse_iff, mem_collapse_iff]
    constructor
    · rintro ⟨h1, h2⟩
      exact ⟨hp.mem_iff.mp h1, fun w hw hk => h2 w (hp.mem_iff.mpr hw) hk⟩
    · rintro ⟨h1, h2⟩
      exact ⟨hp.mem_iff.mpr h1, fun w hw hk => h2 w (hp.mem_iff.mp hw) hk⟩
  · intro l
    exact collapse_of_nodup_keys _ (nodup_keys_collapse l)

end Eclair
